import Mathlib

/-!
Shallow embedding of the training harness in `experiments/train_lik.py`
(SGD / SGLD / cyclical-SGLD training with Bayesian-model-average evaluation),
together with theorems settling the specification claims about it.

Conventions of the embedding:
* machine floats are modelled by `ℝ` (test accuracies, which are exact
  ratios `Nc / N`, by `ℚ` where decidability helps);
* a network state is modelled by the logits it produces: a function
  `α → ℕ → ℝ` from an input to the logit of each class index, with the
  number of classes `C : ℕ` passed explicitly (tensors are rectangular);
* a data loader is modelled by the flat list of its (input, label) pairs,
  which is what the code reconstructs with `torch.cat` over batches;
* Python exceptions (`ZeroDivisionError`, `torch.stack` / `torch.cat` on an
  empty list) are modelled by `Except` / `Option`.
-/

/-! ### `main` dispatch (lines 492-535) -/

inductive TrainRoutine where
  | sgd
  | sgld
  | csgld
  deriving DecidableEq, Repr

/-- Training routines invoked by `main`, in order.  Python truthiness on the
integer arguments `epochs`, `sgld_epochs`, `n_cycles` is `≠ 0`. -/
def mainDispatch (epochs sgld_epochs n_cycles : ℕ) : List TrainRoutine :=
  (if epochs ≠ 0 then [TrainRoutine.sgd] else []) ++
    (if sgld_epochs ≠ 0 then
      (if n_cycles ≠ 0 then [TrainRoutine.csgld] else [TrainRoutine.sgld])
    else [])

/-! ### `run_sgld` posterior-sample persistence (lines 229-260)

`sample_int = (epochs - burn_in) // n_samples` is computed once; at the end
of epoch `e` the code tests `e + 1 > burn_in and (e + 1 - burn_in) % sample_int == 0`
(short-circuit: the modulo is only evaluated when `e + 1 > burn_in`) and, when
it holds, saves the network state to `samples_dir`.  A modulo with
`sample_int = 0` raises `ZeroDivisionError`, modelled by `none` / `Except.error`. -/

/-- Result of the burn-in-gated sampling test of `run_sgld` at epoch `e`:
`some b` when the test evaluates to `b`, `none` when it raises
`ZeroDivisionError`. -/
def sgldSampleCheck (burn_in sample_int e : ℕ) : Option Bool :=
  if burn_in < e + 1 then
    if sample_int = 0 then none
    else some (decide ((e + 1 - burn_in) % sample_int = 0))
  else some false

/-- One epoch-end step of the persistence bookkeeping of `run_sgld`: append `e` to
the list of epochs whose state was saved, or propagate the error. -/
def sgldEpochStep (burn_in sample_int : ℕ) (saved : List ℕ) (e : ℕ) :
    Except Unit (List ℕ) :=
  match sgldSampleCheck burn_in sample_int e with
  | none => Except.error ()
  | some true => Except.ok (saved ++ [e])
  | some false => Except.ok saved

/-- Epochs at which `run_sgld` saves a posterior sample, or `Except.error`
when the run dies with `ZeroDivisionError` (either at the initial
`(epochs - burn_in) // n_samples` when `n_samples = 0`, or at the first
epoch-end modulo check with `sample_int = 0`). -/
def run_sgld_sampledEpochs (epochs burn_in n_samples : ℕ) :
    Except Unit (List ℕ) :=
  if n_samples = 0 then Except.error ()
  else
    (List.range epochs).foldlM
      (sgldEpochStep burn_in ((epochs - burn_in) / n_samples)) []

/-! ### `run_sgd` best-checkpoint bookkeeping (lines 167-207)

`best_acc` starts at `0.0`; after each epoch `e` the test accuracy is compared
with `best_acc` and, on strict improvement, the checkpoint `sgd_model.pt` and
the `best_epoch` / `best_acc` summary entries are overwritten.  A test
accuracy is the exact ratio `Nc / N`, modelled in `ℚ`. -/

structure SgdState where
  best_acc : ℚ
  saved : List ℕ
  deriving DecidableEq, Repr

/-- The epoch loop of `run_sgd`, carrying the epoch counter `e`, restricted to
its observable bookkeeping: `best_acc` and the epochs at which the checkpoint
was (over)written.  `accs` is the sequence of per-epoch test accuracies. -/
def sgdLoop (best : ℚ) (saved : List ℕ) (e : ℕ) : List ℚ → SgdState
  | [] => ⟨best, saved⟩
  | a :: rest =>
      if best < a then sgdLoop a (saved ++ [e]) (e + 1) rest
      else sgdLoop best saved (e + 1) rest

/-- Observable state of `run_sgd` after consuming the per-epoch test
accuracies `accs`. -/
def run_sgd (accs : List ℚ) : SgdState := sgdLoop 0 [] 0 accs

/-- Value of `best_acc` after the first `k` epochs of `run_sgd`. -/
def run_sgd_bestAfter (accs : List ℚ) (k : ℕ) : ℚ :=
  (run_sgd (accs.take k)).best_acc

/-! ### Categorical log-probabilities and softmax (torch collaborator semantics)

`torch.distributions.Categorical(logits=l).log_prob(y)` is
`l y - log (∑ c < C, exp (l c))`, and `l.softmax(dim=-1)` is
`fun c => exp (l c) / ∑ k < C, exp (l k)`. -/

/-- Sum of exponentiated logits over the `C` classes. -/
noncomputable def sumExp (C : ℕ) (l : ℕ → ℝ) : ℝ :=
  ∑ c ∈ Finset.range C, Real.exp (l c)

/-- Categorical log-probability of label `y` under logits `l`. -/
noncomputable def catLogProb (C : ℕ) (l : ℕ → ℝ) (y : ℕ) : ℝ :=
  l y - Real.log (sumExp C l)

/-- Softmax probability of class `c` under logits `l`. -/
noncomputable def softmaxProb (C : ℕ) (l : ℕ → ℝ) (c : ℕ) : ℝ :=
  Real.exp (l c) / sumExp C l

/-- One step of the scan behind `torch.argmax`: keep the current best index `b`,
moving to `c` only on a strictly larger value, so ties resolve to the
earliest maximal index. -/
noncomputable def argmaxStep (v : ℕ → ℝ) (b c : ℕ) : ℕ :=
  if v b < v c then c else b

/-- Index of the first maximal value of `v` on the classes `0, …, C-1`
(`torch.argmax` along the class dimension). -/
noncomputable def idxOfMax (C : ℕ) (v : ℕ → ℝ) : ℕ :=
  (List.range C).foldl (argmaxStep v) 0

/-! ### BMA evaluation (`test_bma`, lines 55-95, and `get_metrics_bma`,
lines 119-148)

Both iterate over the posterior samples in `samples_dir`, loading each into
the network and recording the logits it yields on the whole data set; the
sample therefore enters the metrics only through its logits function
`α → ℕ → ℝ`.  `data : List (α × ℕ)` is the concatenation of the batches of
the loader. -/

/-- Per-sample row of `log_p`: the categorical log-probabilities of the true
labels along the data, for one posterior sample. -/
noncomputable def logProbRow {α : Type} (C : ℕ) (s : α → ℕ → ℝ)
    (data : List (α × ℕ)) : List ℝ :=
  data.map (fun d => catLogProb C (s d.1) d.2)

/-- The `bayes_loss` of `get_metrics_bma` (lines 142-144):
`(log M - logsumexp(log_p, 0)).mean()`, where `log_p` is the `M × n` matrix
of per-sample label log-probabilities and the `logsumexp` runs over the
sample dimension. -/
noncomputable def gm_bayes_loss {α : Type} (C : ℕ) (samples : List (α → ℕ → ℝ))
    (data : List (α × ℕ)) : ℝ :=
  (data.map (fun d =>
      Real.log (samples.length : ℝ) -
        Real.log ((samples.map
          (fun s => Real.exp (catLogProb C (s d.1) d.2))).sum))).sum
    / data.length

/-- The `gibbs_loss` of `get_metrics_bma` (line 141): `-log_p.mean()`, the
mean running jointly over all `M * n` entries of the matrix. -/
noncomputable def gm_gibbs_loss {α : Type} (C : ℕ) (samples : List (α → ℕ → ℝ))
    (data : List (α × ℕ)) : ℝ :=
  -(((samples.map (fun s => logProbRow C s data)).flatten.sum) /
      ((samples.map (fun s => logProbRow C s data)).flatten.length))

/-- The `ce_nll` of `test_bma` (lines 83-88):
`-Categorical(logits=ens_logits).log_prob(all_Y).sum(dim=-1).mean(dim=-1)`,
i.e. the per-sample label log-probabilities are summed over the data
(`sum(dim=-1)`) and the resulting per-sample totals averaged over the `M`
samples (`mean(dim=-1)`), then negated. -/
noncomputable def tb_ce_nll {α : Type} (C : ℕ) (samples : List (α → ℕ → ℝ))
    (data : List (α × ℕ)) : ℝ :=
  -((samples.map (fun s => (logProbRow C s data).sum)).sum /
      (samples.length : ℝ))

/-- Mean over the posterior samples of the softmax probability of class `c`
at data point `d`: entry of `ens_logits.softmax(dim=-1).mean(dim=0)`. -/
noncomputable def meanSoftmax {α : Type} (C : ℕ) (samples : List (α → ℕ → ℝ))
    (d : α × ℕ) (c : ℕ) : ℝ :=
  (samples.map (fun s => softmaxProb C (s d.1) c)).sum / (samples.length : ℝ)

/-- The BMA prediction for data point `d`:
`ens_logits.softmax(dim=-1).mean(dim=0).argmax(dim=-1)`. -/
noncomputable def bmaPred {α : Type} (C : ℕ) (samples : List (α → ℕ → ℝ))
    (d : α × ℕ) : ℕ :=
  idxOfMax C (meanSoftmax C samples d)

/-- The `acc` of `test_bma` (lines 92-93): `(Y_pred == all_Y).sum() / n`. -/
noncomputable def tb_acc {α : Type} (C : ℕ) (samples : List (α → ℕ → ℝ))
    (data : List (α × ℕ)) : ℝ :=
  (((data.map (fun d => bmaPred C samples d)).zip (data.map (fun d => d.2))).countP
      (fun p => p.1 = p.2) : ℕ) / (data.length : ℝ)

/-- The `acc` of `get_metrics_bma` (lines 145-146), computed by the same two
lines of code as in `test_bma`. -/
noncomputable def gm_acc {α : Type} (C : ℕ) (samples : List (α → ℕ → ℝ))
    (data : List (α × ℕ)) : ℝ :=
  (((data.map (fun d => bmaPred C samples d)).zip (data.map (fun d => d.2))).countP
      (fun p => p.1 = p.2) : ℕ) / (data.length : ℝ)

/-- The `nll` of `test_bma` (lines 72-73, 90): each sample accumulates
`nll_criterion` over the data and `ens_nll.mean(dim=-1)` averages the totals;
the criterion itself is an external collaborator, abstracted as a function of
the logits and the label.  `none` models `nll_criterion=None`, under which
every per-sample total stays `0.0`. -/
noncomputable def tb_nll {α : Type} (samples : List (α → ℕ → ℝ))
    (data : List (α × ℕ)) (nllCriterion : Option ((ℕ → ℝ) → ℕ → ℝ)) : ℝ :=
  ((samples.map (fun s =>
      match nllCriterion with
      | none => (0 : ℝ)
      | some g => (data.map (fun d => g (s d.1) d.2)).sum)).sum) /
    (samples.length : ℝ)

/-- Model of `get_metrics_bma` as called: with no posterior sample in `samples_dir`
the ensemble list is empty and `torch.stack([])` raises (and `all_Y` was
never bound); with posterior samples but an empty loader, `torch.cat([])`
raises inside the loop of the first sample.  `none` models either exception;
otherwise the metrics dictionary `(acc, gibbs_loss, bayes_loss)` is
returned. -/
noncomputable def get_metrics_bma {α : Type} (C : ℕ)
    (samples : List (α → ℕ → ℝ)) (data : List (α × ℕ)) :
    Option (ℝ × ℝ × ℝ) :=
  if samples.isEmpty || data.isEmpty then none
  else some (gm_acc C samples data, gm_gibbs_loss C samples data,
    gm_bayes_loss C samples data)

/-- Model of `test_bma` as called, returning `(acc, nll, ce_nll)`; it fails on an
empty ensemble or empty data exactly as `get_metrics_bma` does. -/
noncomputable def test_bma {α : Type} (C : ℕ) (samples : List (α → ℕ → ℝ))
    (data : List (α × ℕ)) (nllCriterion : Option ((ℕ → ℝ) → ℕ → ℝ)) :
    Option (ℝ × ℝ × ℝ) :=
  if samples.isEmpty || data.isEmpty then none
  else some (tb_acc C samples data, tb_nll samples data nllCriterion,
    tb_ce_nll C samples data)

/-! ### `run_csgld` minibatch phases (lines 305-339)

The cosine scheduler `CosineLR` lives outside the source of this file; the claim
is about the branching of `run_csgld` on it, so the scheduler enters abstractly:
`lastBeta t` is the value of `sgld_scheduler.get_last_beta()` at minibatch
step `t`, `beta` the fixed threshold `sgld_scheduler.beta`, and
`shouldSample t` the value of `sgld_scheduler.should_sample()` at step `t`
(the scheduler is stepped exactly once per minibatch, so its state is a
function of `t`). -/

/-- What one minibatch step of `run_csgld` does: whether `sgld.step` injects
noise, and whether the network state is persisted to `samples_dir`. -/
structure CsgldAction where
  noise : Bool
  saved : Bool
  deriving DecidableEq, Repr

/-- One minibatch step of `run_csgld` (lines 317-324): in the exploration
phase (`get_last_beta() < beta`) step with `noise=False` and never save;
otherwise take the noisy step and save exactly when `should_sample()`. -/
noncomputable def csgldMinibatch (lastBeta : ℕ → ℝ) (beta : ℝ)
    (shouldSample : ℕ → Bool) (t : ℕ) : CsgldAction :=
  if lastBeta t < beta then ⟨false, false⟩
  else ⟨true, shouldSample t⟩

/-- The trace of all `T` minibatch steps of a `run_csgld` run. -/
noncomputable def csgldTrace (lastBeta : ℕ → ℝ) (beta : ℝ)
    (shouldSample : ℕ → Bool) (T : ℕ) : List CsgldAction :=
  (List.range T).map (csgldMinibatch lastBeta beta shouldSample)

/-! ## Theorems -/

/-- C7: `main` runs `run_sgd` if and only if `epochs` is nonzero; then, when
`sgld_epochs` is nonzero, it runs `run_csgld` when `n_cycles` is nonzero and
`run_sgld` when `n_cycles` is zero; with both `epochs` and `sgld_epochs` zero
no training routine is invoked. -/
theorem main_dispatch_correct (epochs sgld_epochs n_cycles : ℕ) :
    (TrainRoutine.sgd ∈ mainDispatch epochs sgld_epochs n_cycles ↔ epochs ≠ 0) ∧
    (TrainRoutine.csgld ∈ mainDispatch epochs sgld_epochs n_cycles ↔
      (sgld_epochs ≠ 0 ∧ n_cycles ≠ 0)) ∧
    (TrainRoutine.sgld ∈ mainDispatch epochs sgld_epochs n_cycles ↔
      (sgld_epochs ≠ 0 ∧ n_cycles = 0)) ∧
    (epochs = 0 ∧ sgld_epochs = 0 →
      mainDispatch epochs sgld_epochs n_cycles = []) := by
  unfold mainDispatch
  split_ifs <;> simp_all

/-- C9: both BMA evaluators are defined exactly when the ensemble directory
holds at least one posterior sample and the data loader yields at least one
point; with an empty ensemble or empty data they raise. -/
theorem bma_defined_iff {α : Type} (C : ℕ) (samples : List (α → ℕ → ℝ))
    (data : List (α × ℕ)) (nllc : Option ((ℕ → ℝ) → ℕ → ℝ)) :
    ((test_bma C samples data nllc).isSome ↔ (samples ≠ [] ∧ data ≠ [])) ∧
    ((get_metrics_bma C samples data).isSome ↔ (samples ≠ [] ∧ data ≠ [])) := by
  unfold test_bma get_metrics_bma
  constructor <;>
  · split_ifs with h <;>
      (simp_all [Bool.or_eq_true, List.isEmpty_iff, not_or]; try tauto)

/-- With a nonzero sampling interval the epoch-end check of `run_sgld` never
raises and appends `e` exactly when the burn-in-gated modulo test passes. -/
theorem sgldEpochStep_ok (burn_in sample_int : ℕ) (hs : sample_int ≠ 0)
    (saved : List ℕ) (e : ℕ) :
    sgldEpochStep burn_in sample_int saved e =
      Except.ok (if burn_in < e + 1 ∧ (e + 1 - burn_in) % sample_int = 0
        then saved ++ [e] else saved) := by
  unfold sgldEpochStep sgldSampleCheck
  split_ifs with h1 h2 <;> simp_all

/-- With a nonzero sampling interval, folding the epoch-end bookkeeping over
any epoch list appends exactly the epochs passing the burn-in-gated test. -/
theorem sgldFold_ok (burn_in sample_int : ℕ) (hs : sample_int ≠ 0)
    (l : List ℕ) (init : List ℕ) :
    l.foldlM (sgldEpochStep burn_in sample_int) init =
      Except.ok (init ++ l.filter (fun e =>
        decide (burn_in < e + 1) && decide ((e + 1 - burn_in) % sample_int = 0))) := by
  induction l generalizing init with
  | nil => simp [pure, Except.pure]
  | cons e rest ih =>
      rw [List.foldlM_cons, sgldEpochStep_ok burn_in sample_int hs init e]
      simp only [List.filter_cons]
      by_cases h1 : burn_in < e + 1 ∧ (e + 1 - burn_in) % sample_int = 0
      · rw [if_pos h1]
        simp only [bind, Except.bind]
        rw [ih (init ++ [e])]
        simp [h1]
      · rw [if_neg h1]
        simp only [bind, Except.bind]
        rw [ih init]
        rcases Decidable.not_and_iff_or_not.mp h1 with h | h <;> simp [h]

/-- C2: with a nonzero sampling interval, `run_sgld` completes and persists a
posterior sample at the end of epoch `e` exactly when `e + 1 > burn_in` and
`sample_int = (epochs - burn_in) / n_samples` divides `e + 1 - burn_in`; in
particular no sample is persisted at any epoch with `e + 1 ≤ burn_in`. -/
theorem run_sgld_sample_persistence (epochs burn_in n_samples : ℕ)
    (hn : n_samples ≠ 0)
    (hs : (epochs - burn_in) / n_samples ≠ 0) :
    ∃ l, run_sgld_sampledEpochs epochs burn_in n_samples = Except.ok l ∧
      (∀ e, e ∈ l ↔ e < epochs ∧ burn_in < e + 1 ∧
        ((epochs - burn_in) / n_samples) ∣ (e + 1 - burn_in)) ∧
      (∀ e, e + 1 ≤ burn_in → e ∉ l) := by
  unfold run_sgld_sampledEpochs
  rw [if_neg hn, sgldFold_ok _ _ hs]
  refine ⟨_, rfl, ?_, ?_⟩
  · intro e
    simp only [List.nil_append, List.mem_filter, List.mem_range,
      Bool.and_eq_true, decide_eq_true_eq, Nat.dvd_iff_mod_eq_zero, and_assoc]
  · intro e he
    simp only [List.nil_append, List.mem_filter, List.mem_range,
      Bool.and_eq_true, decide_eq_true_eq]
    rintro ⟨-, h, -⟩
    omega

/-- Witness for C2: with `epochs = 4`, `burn_in = 1`, `n_samples = 3` the
sampling interval is `1` and the characterization holds. -/
theorem run_sgld_sample_persistence_witness :
    (3 : ℕ) ≠ 0 ∧ (4 - 1) / 3 ≠ (0 : ℕ) ∧
    (∃ l, run_sgld_sampledEpochs 4 1 3 = Except.ok l ∧
      (∀ e, e ∈ l ↔ e < 4 ∧ 1 < e + 1 ∧ ((4 - 1) / 3 : ℕ) ∣ (e + 1 - 1)) ∧
      (∀ e, e + 1 ≤ 1 → e ∉ l)) :=
  ⟨by decide, by decide,
    run_sgld_sample_persistence 4 1 3 (by decide) (by decide)⟩

/-- An epoch still inside burn-in leaves the bookkeeping untouched, because
the short-circuit `and` never reaches the modulo. -/
theorem sgldSampleCheck_of_le (burn_in sample_int e : ℕ)
    (h : ¬ burn_in < e + 1) :
    sgldSampleCheck burn_in sample_int e = some false := by
  unfold sgldSampleCheck
  rw [if_neg h]

/-- Folding the epoch-end bookkeeping over epochs that are all inside burn-in
never saves and never raises, whatever the sampling interval. -/
theorem sgldFold_no_op (burn_in sample_int : ℕ) (l : List ℕ)
    (h : ∀ e ∈ l, ¬ burn_in < e + 1) (init : List ℕ) :
    l.foldlM (sgldEpochStep burn_in sample_int) init = Except.ok init := by
  induction l generalizing init with
  | nil => simp [pure, Except.pure]
  | cons e rest ih =>
      rw [List.foldlM_cons]
      have hstep : sgldEpochStep burn_in sample_int init e = Except.ok init := by
        unfold sgldEpochStep
        rw [sgldSampleCheck_of_le burn_in sample_int e (h e (by simp))]
      rw [hstep]
      simp only [bind, Except.bind]
      exact ih (fun x hx => h x (by simp [hx])) init

/-- C8: with `n_samples ≥ 1` and `0 < epochs - burn_in < n_samples` the
sampling interval truncates to `0`; the epoch-end check raises exactly at the
epochs past burn-in, the first being `e = burn_in`, so the run dies with
`ZeroDivisionError` instead of completing. -/
theorem run_sgld_zero_interval_raises (epochs burn_in n_samples : ℕ)
    (h1 : 1 ≤ n_samples) (h2 : burn_in < epochs)
    (h3 : epochs - burn_in < n_samples) :
    (epochs - burn_in) / n_samples = 0 ∧
    (∀ e, sgldSampleCheck burn_in ((epochs - burn_in) / n_samples) e = none ↔
      burn_in < e + 1) ∧
    run_sgld_sampledEpochs epochs burn_in n_samples = Except.error () := by
  have hsi : (epochs - burn_in) / n_samples = 0 := Nat.div_eq_of_lt h3
  refine ⟨hsi, ?_, ?_⟩
  · intro e
    rw [hsi]
    unfold sgldSampleCheck
    split_ifs with h <;> simp_all
  · unfold run_sgld_sampledEpochs
    rw [if_neg (by omega), hsi]
    obtain ⟨k, hk1, hepochs⟩ : ∃ k, 1 ≤ k ∧ epochs = burn_in + k :=
      ⟨epochs - burn_in, by omega, by omega⟩
    rw [hepochs, List.range_add, List.foldlM_append,
      sgldFold_no_op burn_in 0 _
        (by intro x hx; rw [List.mem_range] at hx; omega) []]
    obtain ⟨j, rfl⟩ : ∃ j, k = j + 1 := ⟨k - 1, by omega⟩
    rw [List.range_succ_eq_map]
    simp only [List.map_cons, List.foldlM_cons, bind, Except.bind]
    have hstep : sgldEpochStep burn_in 0 [] (burn_in + 0) = Except.error () := by
      unfold sgldEpochStep sgldSampleCheck
      rw [if_pos (by omega), if_pos rfl]
    rw [hstep]

/-- Witness for C8: `epochs = 3`, `burn_in = 1`, `n_samples = 5` has one post
burn-in epoch fewer than the requested samples, and the run raises. -/
theorem run_sgld_zero_interval_raises_witness :
    (1 : ℕ) ≤ 5 ∧ (1 : ℕ) < 3 ∧ (3 - 1 : ℕ) < 5 ∧
    ((3 - 1 : ℕ) / 5 = 0 ∧
      (∀ e, sgldSampleCheck 1 ((3 - 1) / 5) e = none ↔ 1 < e + 1) ∧
      run_sgld_sampledEpochs 3 1 5 = Except.error ()) :=
  ⟨by decide, by decide, by decide,
    run_sgld_zero_interval_raises 3 1 5 (by decide) (by decide) (by decide)⟩

/-- C1: every minibatch step of `run_csgld` falls in exactly one of the two
scheduler-determined phases: in the exploration phase
(`get_last_beta() < beta`) the SGLD step runs with `noise=False` and nothing
is persisted; otherwise the noisy step runs and the state dict is saved to
`samples_dir` exactly when `should_sample()` holds. -/
theorem run_csgld_phase_dichotomy (lastBeta : ℕ → ℝ) (beta : ℝ)
    (shouldSample : ℕ → Bool) (T t : ℕ) (ht : t < T) :
    (csgldTrace lastBeta beta shouldSample T)[t]? =
      some (csgldMinibatch lastBeta beta shouldSample t) ∧
    ((lastBeta t < beta ∧
        csgldMinibatch lastBeta beta shouldSample t = ⟨false, false⟩) ∨
      (¬ lastBeta t < beta ∧
        (csgldMinibatch lastBeta beta shouldSample t).noise = true ∧
        (csgldMinibatch lastBeta beta shouldSample t).saved = shouldSample t)) := by
  constructor
  · simp [csgldTrace, ht]
  · unfold csgldMinibatch
    by_cases h : lastBeta t < beta
    · exact Or.inl ⟨h, by rw [if_pos h]⟩
    · exact Or.inr ⟨h, by rw [if_neg h], by rw [if_neg h]⟩

/-- Witness for C1 at a concrete scheduler and step. -/
theorem run_csgld_phase_dichotomy_witness :
    (0 : ℕ) < 2 ∧
    ((csgldTrace (fun _ => (0 : ℝ)) 1 (fun _ => true) 2)[0]? =
        some (csgldMinibatch (fun _ => (0 : ℝ)) 1 (fun _ => true) 0) ∧
      (((fun _ => (0 : ℝ)) 0 < (1 : ℝ) ∧
          csgldMinibatch (fun _ => (0 : ℝ)) 1 (fun _ => true) 0 = ⟨false, false⟩) ∨
        (¬ ((fun _ => (0 : ℝ)) 0 < (1 : ℝ)) ∧
          (csgldMinibatch (fun _ => (0 : ℝ)) 1 (fun _ => true) 0).noise = true ∧
          (csgldMinibatch (fun _ => (0 : ℝ)) 1 (fun _ => true) 0).saved =
            (fun _ => true) 0))) :=
  ⟨by decide,
    run_csgld_phase_dichotomy (fun _ => (0 : ℝ)) 1 (fun _ => true) 2 0
      (by decide)⟩

/-- After the `run_sgd` loop, `best_acc` is the running maximum of the initial
value and the consumed accuracies. -/
theorem sgdLoop_best_acc (l : List ℚ) : ∀ (b : ℚ) (s : List ℕ) (e : ℕ),
    (sgdLoop b s e l).best_acc = l.foldl max b := by
  induction l with
  | nil => intro b s e; rfl
  | cons a rest ih =>
      intro b s e
      unfold sgdLoop
      rw [List.foldl_cons]
      split_ifs with h
      · rw [ih, max_eq_right h.le]
      · rw [ih, max_eq_left (not_lt.mp h)]

/-- Epochs recorded by the `run_sgd` loop: exactly those whose accuracy
strictly exceeds the incoming `best_acc` and every accuracy before them. -/
theorem sgdLoop_saved_mem (l : List ℚ) : ∀ (b : ℚ) (s : List ℕ) (e₀ x : ℕ),
    (x ∈ (sgdLoop b s e₀ l).saved ↔
      x ∈ s ∨ ∃ i, i < l.length ∧ x = e₀ + i ∧ b < l.getD i 0 ∧
        ∀ j, j < i → l.getD j 0 < l.getD i 0) := by
  induction l with
  | nil =>
      intro b s e₀ x
      simp [sgdLoop]
  | cons a rest ih =>
      intro b s e₀ x
      unfold sgdLoop
      split_ifs with h
      · rw [ih]
        constructor
        · rintro (hx | ⟨i, hi, rfl, hlt, hall⟩)
          · rcases List.mem_append.mp hx with hx | hx
            · exact Or.inl hx
            · refine Or.inr ⟨0, by simp, by simpa using hx, by simpa using h, ?_⟩
              intro j hj
              omega
          · refine Or.inr ⟨i + 1, by simpa using Nat.succ_lt_succ hi, by omega,
              by simpa using lt_trans h hlt, ?_⟩
            intro j hj
            cases j with
            | zero => simpa using hlt
            | succ j' =>
                have := hall j' (by omega)
                simpa using this
        · rintro (hx | ⟨i, hi, rfl, hlt, hall⟩)
          · exact Or.inl (List.mem_append.mpr (Or.inl hx))
          · cases i with
            | zero => exact Or.inl (List.mem_append.mpr (Or.inr (by simp)))
            | succ i' =>
                refine Or.inr ⟨i', by simpa using hi, by omega,
                  by simpa using hall 0 (Nat.succ_pos i'), ?_⟩
                intro j hj
                have := hall (j + 1) (Nat.succ_lt_succ hj)
                simpa using this
      · rw [ih]
        constructor
        · rintro (hx | ⟨i, hi, rfl, hlt, hall⟩)
          · exact Or.inl hx
          · refine Or.inr ⟨i + 1, by simpa using Nat.succ_lt_succ hi, by omega,
              by simpa using hlt, ?_⟩
            intro j hj
            cases j with
            | zero => simpa using lt_of_le_of_lt (not_lt.mp h) hlt
            | succ j' =>
                have := hall j' (by omega)
                simpa using this
        · rintro (hx | ⟨i, hi, rfl, hlt, hall⟩)
          · exact Or.inl hx
          · cases i with
            | zero => exact absurd (by simpa using hlt) h
            | succ i' =>
                refine Or.inr ⟨i', by simpa using hi, by omega,
                  by simpa using hlt, ?_⟩
                intro j hj
                have := hall (j + 1) (Nat.succ_lt_succ hj)
                simpa using this

/-- A left fold by `max` is either the seed or one of the elements. -/
theorem foldl_max_mem (l : List ℚ) :
    ∀ b : ℚ, l.foldl max b = b ∨ l.foldl max b ∈ l := by
  induction l with
  | nil => intro b; exact Or.inl rfl
  | cons a rest ih =>
      intro b
      rw [List.foldl_cons]
      rcases ih (max b a) with h | h
      · rcases max_choice b a with hm | hm
        · exact Or.inl (h.trans hm)
        · exact Or.inr (by rw [h, hm]; simp)
      · exact Or.inr (by simp [h])

/-- A left fold by `max` dominates its seed and all elements. -/
theorem le_foldl_max (l : List ℚ) :
    ∀ b : ℚ, b ≤ l.foldl max b ∧ ∀ a ∈ l, a ≤ l.foldl max b := by
  induction l with
  | nil => intro b; exact ⟨le_refl b, by simp⟩
  | cons a rest ih =>
      intro b
      rw [List.foldl_cons]
      obtain ⟨h1, h2⟩ := ih (max b a)
      refine ⟨le_trans (le_max_left b a) h1, ?_⟩
      intro x hx
      rcases List.mem_cons.mp hx with rfl | hx
      · exact le_trans (le_max_right b x) h1
      · exact h2 x hx

/-- C10 fails as stated: a first epoch with test accuracy `0` vacuously
exceeds the accuracy of every earlier epoch, yet `run_sgd` writes no
checkpoint, because the comparison is against the initialization
`best_acc = 0.0`. -/
theorem run_sgd_checkpoint_counterexample :
    (run_sgd [(0 : ℚ)]).saved = [] ∧
    ¬ ((0 ∈ (run_sgd [(0 : ℚ)]).saved) ↔
        ∀ j, j < 0 → List.getD [(0 : ℚ)] j 0 < List.getD [(0 : ℚ)] 0 0) := by
  decide

/-- C10 (amended): `best_acc` is non-decreasing across epochs; the checkpoint
and summary entries are (over)written exactly at the epochs whose test
accuracy strictly exceeds the initialization `0.0` as well as the accuracy of
every earlier epoch; and after the final epoch `best_acc` is the maximum
accuracy attained (accuracies, being ratios `Nc / N`, are nonnegative). -/
theorem run_sgd_best_checkpoint (accs : List ℚ)
    (hpos : ∀ a ∈ accs, 0 ≤ a) (hne : accs ≠ []) :
    (∀ k, run_sgd_bestAfter accs k ≤ run_sgd_bestAfter accs (k + 1)) ∧
    (∀ e, e ∈ (run_sgd accs).saved ↔
      e < accs.length ∧ 0 < accs.getD e 0 ∧
        ∀ j, j < e → accs.getD j 0 < accs.getD e 0) ∧
    ((run_sgd accs).best_acc ∈ accs ∧
      ∀ a ∈ accs, a ≤ (run_sgd accs).best_acc) := by
  have hbest : (run_sgd accs).best_acc = accs.foldl max 0 :=
    sgdLoop_best_acc accs 0 [] 0
  refine ⟨?_, ?_, ?_, ?_⟩
  · intro k
    unfold run_sgd_bestAfter run_sgd
    rw [sgdLoop_best_acc, sgdLoop_best_acc, List.take_succ, List.foldl_append]
    exact (le_foldl_max _ _).1
  · intro e
    rw [run_sgd, sgdLoop_saved_mem]
    constructor
    · rintro (hx | ⟨i, hi, rfl, hlt, hall⟩)
      · simp at hx
      · exact ⟨by omega, by simpa using hlt, by simpa using hall⟩
    · rintro ⟨he, hlt, hall⟩
      exact Or.inr ⟨e, he, by omega, hlt, hall⟩
  · rcases foldl_max_mem accs 0 with h0 | hmem
    · obtain ⟨a, ha⟩ := List.exists_mem_of_ne_nil accs hne
      have h1 : a ≤ accs.foldl max 0 := (le_foldl_max accs 0).2 a ha
      have h2 : a = accs.foldl max 0 :=
        le_antisymm h1 (by rw [h0]; exact hpos a ha)
      rw [hbest, ← h2]
      exact ha
    · rw [hbest]
      exact hmem
  · intro a ha
    rw [hbest]
    exact (le_foldl_max accs 0).2 a ha

/-- Witness for the amended C10 at the accuracy sequence `[0, 1/2]`. -/
theorem run_sgd_best_checkpoint_witness :
    (∀ a ∈ [(0 : ℚ), 1/2], 0 ≤ a) ∧ ([(0 : ℚ), 1/2] ≠ []) ∧
    ((∀ k, run_sgd_bestAfter [(0 : ℚ), 1/2] k ≤
        run_sgd_bestAfter [(0 : ℚ), 1/2] (k + 1)) ∧
      (∀ e, e ∈ (run_sgd [(0 : ℚ), 1/2]).saved ↔
        e < [(0 : ℚ), 1/2].length ∧ 0 < [(0 : ℚ), 1/2].getD e 0 ∧
          ∀ j, j < e → [(0 : ℚ), 1/2].getD j 0 < [(0 : ℚ), 1/2].getD e 0) ∧
      ((run_sgd [(0 : ℚ), 1/2]).best_acc ∈ [(0 : ℚ), 1/2] ∧
        ∀ a ∈ [(0 : ℚ), 1/2], a ≤ (run_sgd [(0 : ℚ), 1/2]).best_acc)) :=
  ⟨by norm_num, by simp,
    run_sgd_best_checkpoint [(0 : ℚ), 1/2] (by norm_num) (by simp)⟩

/-- With at least one class the normalizer of the softmax is positive. -/
theorem sumExp_pos (C : ℕ) (hC : 1 ≤ C) (l : ℕ → ℝ) : 0 < sumExp C l := by
  unfold sumExp
  exact Finset.sum_pos (fun i _ => Real.exp_pos (l i))
    ⟨0, Finset.mem_range.mpr hC⟩

/-- Softmax probabilities are positive. -/
theorem softmaxProb_pos (C : ℕ) (hC : 1 ≤ C) (l : ℕ → ℝ) (c : ℕ) :
    0 < softmaxProb C l c :=
  div_pos (Real.exp_pos _) (sumExp_pos C hC l)

/-- Exponentiating the categorical log-probability recovers the softmax
probability of the label. -/
theorem exp_catLogProb (C : ℕ) (hC : 1 ≤ C) (l : ℕ → ℝ) (y : ℕ) :
    Real.exp (catLogProb C l y) = softmaxProb C l y := by
  unfold catLogProb softmaxProb
  rw [Real.exp_sub, Real.exp_log (sumExp_pos C hC l)]

/-- The categorical log-probability is the log of the softmax probability. -/
theorem catLogProb_eq_log_softmax (C : ℕ) (hC : 1 ≤ C) (l : ℕ → ℝ) (y : ℕ) :
    catLogProb C l y = Real.log (softmaxProb C l y) := by
  rw [← exp_catLogProb C hC l y, Real.log_exp]

/-- Claim-side formula for `gibbs_loss`: the negative mean, jointly over all
posterior samples and all data points, of the log of the probability that
the logits of the sample assign to the true label. -/
noncomputable def gibbsLossSpec {α : Type} (C : ℕ) (samples : List (α → ℕ → ℝ))
    (data : List (α × ℕ)) : ℝ :=
  -(((samples.map (fun s =>
        (data.map (fun d => Real.log (softmaxProb C (s d.1) d.2))).sum)).sum) /
      ((samples.length : ℝ) * (data.length : ℝ)))

/-- C4: for a nonempty ensemble and nonempty data (and at least one class),
`gibbs_loss` is the negative joint mean over samples and data points of the
categorical log-probability assigned to the true label. -/
theorem gm_gibbs_loss_correct {α : Type} (C : ℕ) (samples : List (α → ℕ → ℝ))
    (data : List (α × ℕ)) (hC : 1 ≤ C) (_hM : samples ≠ []) (_hD : data ≠ []) :
    gm_gibbs_loss C samples data = gibbsLossSpec C samples data := by
  unfold gm_gibbs_loss gibbsLossSpec
  have hlen : ((samples.map (fun s => logProbRow C s data)).flatten).length
      = samples.length * data.length := by
    rw [List.length_flatten, List.map_map]
    have hc : (List.length ∘ fun s => logProbRow C s data)
        = fun _ : α → ℕ → ℝ => data.length := by
      funext s
      simp [logProbRow]
    rw [hc]
    simp [List.map_const', List.sum_replicate, mul_comm]
  rw [hlen, List.sum_flatten, List.map_map]
  have hrow : (List.sum ∘ fun s => logProbRow C s data)
      = fun s : α → ℕ → ℝ =>
        (data.map (fun d => Real.log (softmaxProb C (s d.1) d.2))).sum := by
    funext s
    simp only [Function.comp, logProbRow, catLogProb_eq_log_softmax C hC]
  rw [hrow]
  push_cast
  ring

/-- Witness for C4 at a one-sample, one-point, one-class instance. -/
theorem gm_gibbs_loss_correct_witness :
    (1 : ℕ) ≤ 1 ∧ [fun _ : Unit => fun _ : ℕ => (0 : ℝ)] ≠ [] ∧
    [(((), 0) : Unit × ℕ)] ≠ [] ∧
    gm_gibbs_loss 1 [fun _ : Unit => fun _ : ℕ => (0 : ℝ)] [((), 0)] =
      gibbsLossSpec 1 [fun _ : Unit => fun _ : ℕ => (0 : ℝ)] [((), 0)] :=
  ⟨by norm_num, by simp, by simp,
    gm_gibbs_loss_correct 1 _ _ (by norm_num) (by simp) (by simp)⟩

/-- Claim-side equally-weighted model-averaged predictive probability of the
true label of data point `d`. -/
noncomputable def avgPredProb {α : Type} (C : ℕ) (samples : List (α → ℕ → ℝ))
    (d : α × ℕ) : ℝ :=
  (samples.map (fun s => softmaxProb C (s d.1) d.2)).sum / (samples.length : ℝ)

/-- Claim-side formula for `bayes_loss`: the negative log of the
model-averaged predictive probability of the true label, averaged over the
data. -/
noncomputable def bayesLossSpec {α : Type} (C : ℕ) (samples : List (α → ℕ → ℝ))
    (data : List (α × ℕ)) : ℝ :=
  (data.map (fun d => -Real.log (avgPredProb C samples d))).sum /
    (data.length : ℝ)

/-- C3: for a nonempty ensemble of `M` samples and nonempty data,
`bayes_loss` — computed by the code as the mean over data of
`log M - logsumexp` of the per-sample label log-probabilities — equals the
mean over the data of the negative log of the equally-weighted model-averaged
predictive probability of the true label. -/
theorem gm_bayes_loss_correct {α : Type} (C : ℕ) (samples : List (α → ℕ → ℝ))
    (data : List (α × ℕ)) (hC : 1 ≤ C) (hM : samples ≠ []) (_hD : data ≠ []) :
    gm_bayes_loss C samples data = bayesLossSpec C samples data := by
  unfold gm_bayes_loss bayesLossSpec
  have hfun : ∀ d : α × ℕ,
      Real.log (samples.length : ℝ) -
        Real.log ((samples.map
          (fun s => Real.exp (catLogProb C (s d.1) d.2))).sum)
      = -Real.log (avgPredProb C samples d) := by
    intro d
    have hS : 0 < (samples.map (fun s => softmaxProb C (s d.1) d.2)).sum := by
      apply List.sum_pos
      · intro x hx
        obtain ⟨s, hs, rfl⟩ := List.mem_map.mp hx
        exact softmaxProb_pos C hC _ _
      · simpa using hM
    have hM' : (0 : ℝ) < (samples.length : ℝ) := by
      exact_mod_cast List.length_pos.mpr hM
    simp only [exp_catLogProb C hC]
    unfold avgPredProb
    rw [Real.log_div (ne_of_gt hS) (ne_of_gt hM')]
    ring
  simp only [hfun]

/-- Witness for C3 at a one-sample, one-point, one-class instance. -/
theorem gm_bayes_loss_correct_witness :
    (1 : ℕ) ≤ 1 ∧ [fun _ : Unit => fun _ : ℕ => (0 : ℝ)] ≠ [] ∧
    [(((), 0) : Unit × ℕ)] ≠ [] ∧
    gm_bayes_loss 1 [fun _ : Unit => fun _ : ℕ => (0 : ℝ)] [((), 0)] =
      bayesLossSpec 1 [fun _ : Unit => fun _ : ℕ => (0 : ℝ)] [((), 0)] :=
  ⟨by norm_num, by simp, by simp,
    gm_bayes_loss_correct 1 _ _ (by norm_num) (by simp) (by simp)⟩

/-- Claim-side formula for the BMA accuracy: the fraction of data points
whose true label equals the argmax of the average over all posterior samples
of the per-sample softmax probability vectors. -/
noncomputable def bmaAccSpec {α : Type} (C : ℕ) (samples : List (α → ℕ → ℝ))
    (data : List (α × ℕ)) : ℝ :=
  ((data.filter (fun d => d.2 = bmaPred C samples d)).length : ℝ) /
    (data.length : ℝ)

/-- C6: in both `test_bma` and `get_metrics_bma` the returned `acc` is the
Bayesian model-averaged predictive accuracy: the fraction of data points
whose true label equals the argmax of the sample-averaged softmax vector. -/
theorem bma_acc_correct {α : Type} (C : ℕ) (samples : List (α → ℕ → ℝ))
    (data : List (α × ℕ)) (_hM : samples ≠ []) (_hD : data ≠ []) :
    tb_acc C samples data = bmaAccSpec C samples data ∧
    gm_acc C samples data = bmaAccSpec C samples data := by
  have h1 : tb_acc C samples data = bmaAccSpec C samples data := by
    unfold tb_acc bmaAccSpec
    rw [List.zip_map', List.countP_map, ← List.countP_eq_length_filter]
    have hc : data.countP
        ((fun p : ℕ × ℕ => decide (p.1 = p.2)) ∘
          fun d : α × ℕ => (bmaPred C samples d, d.2)) =
        data.countP (fun d : α × ℕ => decide (d.2 = bmaPred C samples d)) := by
      apply List.countP_congr
      intro x hx
      simp [Function.comp, eq_comm]
    rw [hc]
  exact ⟨h1, h1⟩

/-- Witness for C6 at a one-sample, one-point instance. -/
theorem bma_acc_correct_witness :
    [fun _ : Unit => fun _ : ℕ => (0 : ℝ)] ≠ [] ∧
    [(((), 0) : Unit × ℕ)] ≠ [] ∧
    (tb_acc 1 [fun _ : Unit => fun _ : ℕ => (0 : ℝ)] [((), 0)] =
        bmaAccSpec 1 [fun _ : Unit => fun _ : ℕ => (0 : ℝ)] [((), 0)] ∧
      gm_acc 1 [fun _ : Unit => fun _ : ℕ => (0 : ℝ)] [((), 0)] =
        bmaAccSpec 1 [fun _ : Unit => fun _ : ℕ => (0 : ℝ)] [((), 0)]) :=
  ⟨by simp, by simp, bma_acc_correct 1 _ _ (by simp) (by simp)⟩

/-- Claim-side value asserted for `ce_nll`: the negative log-probability of
the true labels under the equally-weighted mixture of the per-sample
categorical predictive distributions (the labels being independent, their
joint log-probability is the sum over data points). -/
noncomputable def mixtureNllSpec {α : Type} (C : ℕ)
    (samples : List (α → ℕ → ℝ)) (data : List (α × ℕ)) : ℝ :=
  -((data.map (fun d => Real.log (avgPredProb C samples d))).sum)

/-- C5 fails as stated: with two posterior samples — logits `(0, 0)` and
`(log 3, 0)` — and a single data point labelled `0`, `ce_nll` is
`(log 2 + log 4 - log 3) / 2 = log (8/3) / 2`, while the mixture
negative log-likelihood is `-log (5/8) = log (8/5)`; the two differ because
`24 ≠ 25`. -/
theorem tb_ce_nll_counterexample :
    tb_ce_nll 2 [fun _ : Unit => fun _ : ℕ => (0 : ℝ),
        fun _ : Unit => fun c : ℕ => if c = 0 then Real.log 3 else 0]
      [((), 0)] ≠
    mixtureNllSpec 2 [fun _ : Unit => fun _ : ℕ => (0 : ℝ),
        fun _ : Unit => fun c : ℕ => if c = 0 then Real.log 3 else 0]
      [((), 0)] := by
  have e3 : Real.exp (Real.log 3) = 3 := Real.exp_log (by norm_num)
  simp only [tb_ce_nll, mixtureNllSpec, avgPredProb, logProbRow, catLogProb,
    sumExp, softmaxProb, List.map_cons, List.map_nil, List.sum_cons,
    List.sum_nil, List.length_cons, List.length_nil,
    Finset.sum_range_succ, Finset.sum_range_zero, Real.exp_zero]
  norm_num [e3]
  intro h
  have l4 : Real.log 4 = 2 * Real.log 2 := by
    rw [show (4:ℝ) = 2^2 by norm_num, Real.log_pow]
    norm_num
  have l58 : Real.log (5/8) = Real.log 5 - 3 * Real.log 2 := by
    rw [Real.log_div (by norm_num) (by norm_num),
      show (8:ℝ) = 2^3 by norm_num, Real.log_pow]
    norm_num
  have l24 : Real.log 24 = Real.log 3 + 3 * Real.log 2 := by
    rw [show (24:ℝ) = 3 * 2^3 by norm_num,
      Real.log_mul (by norm_num) (by norm_num), Real.log_pow]
    norm_num
  have l25 : Real.log 25 = 2 * Real.log 5 := by
    rw [show (25:ℝ) = 5^2 by norm_num, Real.log_pow]
    norm_num
  have key : Real.log 24 = Real.log 25 := by
    rw [l58, l4] at h
    rw [l24, l25]
    linarith
  have h2425 := Real.log_injOn_pos
    (Set.mem_Ioi.mpr (by norm_num : (0:ℝ) < 24))
    (Set.mem_Ioi.mpr (by norm_num : (0:ℝ) < 25)) key
  norm_num at h2425

/-- Amended claim-side formula for `ce_nll`: the negative of the average over
posterior samples of the total (summed over the data) log of the predictive
probability each sample assigns to the true label — an ensemble-averaged
Gibbs-style negative log-likelihood. -/
noncomputable def ensembleAvgNllSpec {α : Type} (C : ℕ)
    (samples : List (α → ℕ → ℝ)) (data : List (α × ℕ)) : ℝ :=
  -((samples.map (fun s =>
      (data.map (fun d => Real.log (softmaxProb C (s d.1) d.2))).sum)).sum /
    (samples.length : ℝ))

/-- C5 (amended): for a nonempty ensemble and nonempty data, `ce_nll` equals
the negative of the equally-weighted average over the posterior samples of
the summed categorical log-likelihood of the true labels — not the mixture
negative log-likelihood. -/
theorem tb_ce_nll_correct {α : Type} (C : ℕ) (samples : List (α → ℕ → ℝ))
    (data : List (α × ℕ)) (hC : 1 ≤ C) (_hM : samples ≠ []) (_hD : data ≠ []) :
    tb_ce_nll C samples data = ensembleAvgNllSpec C samples data := by
  unfold tb_ce_nll ensembleAvgNllSpec logProbRow
  simp only [catLogProb_eq_log_softmax C hC]

/-- Witness for the amended C5 at a one-sample, one-point, one-class
instance. -/
theorem tb_ce_nll_correct_witness :
    (1 : ℕ) ≤ 1 ∧ [fun _ : Unit => fun _ : ℕ => (0 : ℝ)] ≠ [] ∧
    [(((), 0) : Unit × ℕ)] ≠ [] ∧
    tb_ce_nll 1 [fun _ : Unit => fun _ : ℕ => (0 : ℝ)] [((), 0)] =
      ensembleAvgNllSpec 1 [fun _ : Unit => fun _ : ℕ => (0 : ℝ)] [((), 0)] :=
  ⟨by norm_num, by simp, by simp,
    tb_ce_nll_correct 1 _ _ (by norm_num) (by simp) (by simp)⟩
